import Mathlib

/-!
Shallow embedding of the `Snail` class (src/snail/snail.py), a small
orchestration of two remote generation calls, a regex-based text
extraction, a dict-based pairing step and an upload step.  Remote
backends (google.genai, huggingface_hub, datasets) are modelled as
oracle parameters: each call either returns a text or raises, encoded
with `Except`.  Python's `str` is modelled by `String`, Python's
insertion-ordered `dict` by an association list with unique keys, and a
raised exception by `Except.error`.  Character classes of the regex
(`\d`, `\s`) are modelled over their ASCII portions, which is the
fragment all claims and examples live in.  Debug `print` calls are
modelled only where a claim depends on the trace (the sleep in the CoT
loop); writing the JSON file in `transform_alpaca_format` is modelled by
the returned filename/record list.
-/

namespace Snail

/-! ### The regex scanner: `extract_listings` (snail.py lines 151-165)

The source runs `re.findall(r'\n\d+\.\s+(.*)', listings)` and strips
trailing whitespace from every captured group.  `re.findall` scans left
to right for non-overlapping matches; the pattern here is backtracking
free (after the maximal run of digits the next character must be a
literal dot, and after the maximal run of whitespace the greedy `(.*)`
always succeeds), so maximal munch implements it exactly. -/

/-- Whitespace characters of the regex class `\s` (ASCII portion),
also the characters removed by Python's `str.rstrip()`. -/
def isSpaceChar (c : Char) : Bool :=
  c = ' ' || c = '\t' || c = '\n' || c = '\r' || c = '\x0b' || c = '\x0c'

/-- One attempt to match `\n\d+\.<sp>+(.*)` at the head of the character
list, where `sp` is the character class of the whitespace after the
period (`isSpaceChar` for the source's `\s`).  On success, returns the
captured group of `(.*)` (greedy, `.` does not match a newline) and the
rest of the input after the full match. -/
def matchAtWith (sp : Char → Bool) (l : List Char) : Option (List Char × List Char) :=
  match l with
  | [] => none
  | c :: rest =>
    if c = '\n' then
      if (rest.takeWhile Char.isDigit).isEmpty then none
      else
        match rest.dropWhile Char.isDigit with
        | '.' :: r2 =>
          if (r2.takeWhile sp).isEmpty then none
          else
            some ((r2.dropWhile sp).takeWhile (fun ch => ch ≠ '\n'),
              (r2.dropWhile sp).dropWhile (fun ch => ch ≠ '\n'))
        | _ => none
    else none

theorem matchAtWith_length_lt {sp : Char → Bool} {l : List Char} {cap r : List Char}
    (h : matchAtWith sp l = some (cap, r)) : r.length < l.length := by
  unfold matchAtWith at h
  split at h
  · simp at h
  next c rest =>
    split at h
    · split at h
      · simp at h
      · split at h
        next r2 heq =>
          split at h
          · simp at h
          · have hr : r = (r2.dropWhile sp).dropWhile (fun ch => ch ≠ '\n') := by
              simp only [Option.some.injEq, Prod.mk.injEq] at h
              exact h.2.symm
            have l1 : ((r2.dropWhile sp).dropWhile (fun ch => ch ≠ '\n')).length ≤
                (r2.dropWhile sp).length := (List.dropWhile_sublist _).length_le
            have l2 : (r2.dropWhile sp).length ≤ r2.length :=
              (List.dropWhile_sublist _).length_le
            have l3 : ('.' :: r2).length ≤ rest.length := by
              rw [← heq]
              exact (List.dropWhile_sublist _).length_le
            simp only [List.length_cons] at l3
            simp only [hr, List.length_cons]
            omega
        next => simp at h
    · simp at h

/-- Fuelled version of the non-overlapping left-to-right scan of
`re.findall`: on a match the scan resumes at the end of the full match,
otherwise it advances one character.  One unit of fuel is spent per
step; since every step consumes at least one character, fuel equal to
the input length (as used by `findAllCapsWith`) never runs out. -/
def findAllCapsFuel (sp : Char → Bool) : Nat → List Char → List (List Char)
  | 0, _ => []
  | _ + 1, [] => []
  | fuel + 1, c :: rest =>
    match matchAtWith sp (c :: rest) with
    | some (cap, r) => cap :: findAllCapsFuel sp fuel r
    | none => findAllCapsFuel sp fuel rest

/-- All captured groups of the non-overlapping left-to-right scan of
`re.findall`, in order of appearance. -/
def findAllCapsWith (sp : Char → Bool) (l : List Char) : List (List Char) :=
  findAllCapsFuel sp l.length l

theorem findAllCapsFuel_nil (sp : Char → Bool) (fuel : Nat) :
    findAllCapsFuel sp fuel [] = [] := by
  cases fuel <;> rfl

theorem findAllCapsFuel_congr (sp : Char → Bool) :
    ∀ (fuel fuel' : Nat) (l : List Char), l.length ≤ fuel → l.length ≤ fuel' →
      findAllCapsFuel sp fuel l = findAllCapsFuel sp fuel' l := by
  intro fuel
  induction fuel with
  | zero =>
    intro fuel' l hl _
    have hnil : l = [] := List.length_eq_zero.mp (Nat.le_zero.mp hl)
    subst hnil
    rw [findAllCapsFuel_nil, findAllCapsFuel_nil]
  | succ fuel ih =>
    intro fuel' l hl hl'
    match l with
    | [] => rw [findAllCapsFuel_nil, findAllCapsFuel_nil]
    | c :: rest =>
      match fuel' with
      | 0 => exact absurd hl' (by simp)
      | fuel' + 1 =>
        cases hm : matchAtWith sp (c :: rest) with
        | some pr =>
          obtain ⟨cap, r⟩ := pr
          have hlen := matchAtWith_length_lt hm
          simp only [List.length_cons] at hl hl' hlen
          simp only [findAllCapsFuel, hm]
          exact congrArg (cap :: ·) (ih fuel' r (by omega) (by omega))
        | none =>
          simp only [List.length_cons] at hl hl'
          simp only [findAllCapsFuel, hm]
          exact ih fuel' rest (by omega) (by omega)

theorem findAllCapsWith_nil (sp : Char → Bool) : findAllCapsWith sp [] = [] := rfl

theorem findAllCapsWith_cons (sp : Char → Bool) (c : Char) (rest : List Char) :
    findAllCapsWith sp (c :: rest) =
      match matchAtWith sp (c :: rest) with
      | some (cap, r) => cap :: findAllCapsWith sp r
      | none => findAllCapsWith sp rest := by
  unfold findAllCapsWith
  cases hm : matchAtWith sp (c :: rest) with
  | some pr =>
    obtain ⟨cap, r⟩ := pr
    have hlen := matchAtWith_length_lt hm
    simp only [List.length_cons] at hlen
    simp only [List.length_cons, findAllCapsFuel, hm]
    exact congrArg (cap :: ·) (findAllCapsFuel_congr sp rest.length r.length r
      (by omega) (le_refl _))
  | none =>
    simp only [List.length_cons, findAllCapsFuel, hm]

/-- Python `str.rstrip()`: remove trailing whitespace characters. -/
def rstrip (l : List Char) : List Char :=
  (l.reverse.dropWhile isSpaceChar).reverse

/-- Snail.extract_listings (snail.py lines 151-165):
`[quote.rstrip() for quote in re.findall(r'\n\d+\.\s+(.*)', listings)]`. -/
def extract_listings (listings : String) : List String :=
  (findAllCapsWith isSpaceChar listings.data).map (fun cap => String.mk (rstrip cap))

/-- Whitespace that is not a newline.  Character class of the variant
pattern described by the claim that the whitespace after the period
"never spans a newline". -/
def isSpaceNoNewlineChar (c : Char) : Bool := isSpaceChar c && c ≠ '\n'

/-- Variant of `extract_listings` following the claim's words: the
whitespace after the period may not include a newline, so every capture
lies on the same line as its numbered marker.  Stated only to be
compared against the source's `extract_listings`. -/
def extract_listings_sameline (listings : String) : List String :=
  (findAllCapsWith isSpaceNoNewlineChar listings.data).map (fun cap => String.mk (rstrip cap))

/-! ### The CoT batch loop: `get_cot_result` (snail.py lines 167-198)

The backend call `client.models.generate_content` for the i-th item is
modelled by an oracle `Nat → String → CallOutcome`: it either returns a
response whose text is `ok text` (a returned response object is never
`None`, so the source's `if response:` guard passes), or raises, which
the source catches in its `except` branch.  The observable side effects
of one iteration are recorded as a trace: on success the text is
appended and `time.sleep(delay)` runs; when the call raises, control
jumps to the `except` branch (which only logs) and the `time.sleep`
inside the `try` block is skipped. -/

inductive CallOutcome where
  | ok (text : String)
  | err (msg : String)
deriving DecidableEq, Repr

inductive TraceEvent where
  | appended (text : String)
  | slept (seconds : Nat)
  | errorLogged (msg : String)
deriving DecidableEq, Repr

/-- Number of `slept` events in a trace. -/
def countSleeps : List TraceEvent → Nat
  | [] => 0
  | TraceEvent.slept _ :: es => countSleeps es + 1
  | _ :: es => countSleeps es

/-- The loop body of Snail.get_cot_result, indexed by the position of
the current item so that the oracle may answer differently on identical
items at different positions. -/
def get_cot_aux (oracle : Nat → String → CallOutcome) (delay : Nat) :
    Nat → List String → List String × List TraceEvent
  | _, [] => ([], [])
  | i, data :: rest =>
    match oracle i data with
    | CallOutcome.ok t =>
      let step := get_cot_aux oracle delay (i + 1) rest
      (t :: step.1, TraceEvent.appended t :: TraceEvent.slept delay :: step.2)
    | CallOutcome.err m =>
      let step := get_cot_aux oracle delay (i + 1) rest
      (step.1, TraceEvent.errorLogged m :: step.2)

/-- Snail.get_cot_result (snail.py lines 167-198): returns the list of
appended response texts together with the trace of the run. -/
def get_cot_result (oracle : Nat → String → CallOutcome) (datas : List String)
    (delay : Nat) : List String × List TraceEvent :=
  get_cot_aux oracle delay 0 datas

/-! ### The dict model and `create_ds` (snail.py lines 200-217) -/

/-- Insertion-ordered association list with unique keys, the model of a
Python `dict[str, str]`. -/
abbrev PyDict := List (String × String)

/-- Keys in iteration order. -/
def keys (d : PyDict) : List String := d.map Prod.fst

/-- Python dict assignment `d[k] = v`: if `k` is present its value is
updated in place (the key keeps its original position), otherwise the
pair is appended at the end.  On the unique-keys representation reached
from the empty dict this is exactly CPython insertion-order
semantics. -/
def dictInsert : PyDict → String → String → PyDict
  | [], k, v => [(k, v)]
  | p :: d, k, v => if p.1 = k then (k, v) :: d else p :: dictInsert d k v

/-- Left-to-right insertion of a list of pairs into an existing dict
(the loop underlying `dict(pairs)`, generalised over the start dict). -/
def insertAll (d : PyDict) (ps : List (String × String)) : PyDict :=
  ps.foldl (fun d p => dictInsert d p.1 p.2) d

/-- Python `dict(pairs)`: left-to-right insertion starting from the
empty dict. -/
def dictOfPairs (ps : List (String × String)) : PyDict :=
  ps.foldl (fun d p => dictInsert d p.1 p.2) []

/-- Python `d[k]` as an option: the value at the first (and, for dicts
built by `dictOfPairs`, only) pair whose key is `k`. -/
def dictLookup (d : PyDict) (k : String) : Option String :=
  (d.find? (fun p => p.1 == k)).map Prod.snd

/-- Snail.create_ds (snail.py lines 200-217): raises ValueError when the
two lists differ in length, otherwise returns `dict(zip(instruction,
output))`. -/
def create_ds (instruction output : List String) : Except String PyDict :=
  if instruction.length ≠ output.length then
    Except.error "Instruction and output must be the same length"
  else
    Except.ok (dictOfPairs (instruction.zip output))

/-! ### `transform_alpaca_format` (snail.py lines 219-249)

The wall-clock timestamp used for the filename is an ambient input of
the source (`datetime.now()`), modelled as an explicit parameter; the
JSON dump to disk is modelled by the returned record list. -/

structure AlpacaRecord where
  instruction : String
  input : String
  output : String
deriving DecidableEq, Repr

/-- Snail.transform_alpaca_format (snail.py lines 219-249): one record
per dict entry in iteration order, `input` always the empty string, and
the timestamped filename. -/
def transform_alpaca_format (timestamp : String) (dataset : PyDict) :
    String × List AlpacaRecord :=
  let transformed_data := dataset.foldl
    (fun acc p => acc ++ [AlpacaRecord.mk p.1 "" p.2]) []
  let output_file := "transformed_qa_" ++ timestamp ++ ".json"
  (output_file, transformed_data)

/-! ### `searching` (snail.py lines 129-149)

The single search-augmented backend call is an oracle value: `ok text`
when `generate_content` returns, `error e` when it raises.  The source
returns `response.text` on success; on failure the `except` branch
prints the error and the function falls off the end, returning `None`.
The second component is the list of error messages printed. -/

def searching (backendResult : Except String String) : Option String × List String :=
  match backendResult with
  | Except.ok t => (some t, [])
  | Except.error e => (none, ["Error occurred while searching: " ++ e])

/-! ### `push_to_hf` (snail.py lines 251-283) -/

/-- The dataset-hosting backend (huggingface_hub / datasets), modelled
as oracles that return or raise.  `createRepo` yields the repo url,
`loadDataset` yields an opaque handle for the loaded dataset. -/
structure HfBackend where
  createRepo : String → Except String String
  pushCard : String → String → Except String Unit
  loadDataset : String → Except String String
  pushDataset : String → String → Except String Unit

/-- Python `username, _ = repo_id.split('/')`: succeeds exactly when the
split has exactly two parts, otherwise raises a ValueError (caught by
the surrounding `try` in the source). -/
def splitUsername (repo_id : String) : Except String String :=
  match repo_id.splitOn "/" with
  | [u, _] => Except.ok u
  | _ => Except.error "values to unpack"

/-- The DATASET_CARD template (snail.py lines 11-30) rendered with the
username. -/
def DATASET_CARD (username : String) : String :=
  "---\nlicense: apache-2.0\nlanguage:\n- en\ntask_categories:\n- text-generation\nsize_categories:\n- n<1K\n---\n\n# Uploaded dataset\n\n- **Developed by:** " ++ username ++
  "\n- **License:** apache-2.0\n\n# Made with Snail\n\n[<img src=\"https://raw.githubusercontent.com/ioscbasotcstw/Snail/main/snail_mascot.png\" width=\"200\"/>](https://github.com/ioscbasotcstw/Snail)\n"

/-- The `try` block of Snail.push_to_hf: create the repository, unpack
the username, render and push the card, load the JSON file and push the
dataset; the first raise aborts the rest of the block. -/
def push_to_hf_body (b : HfBackend) (json_path repo_id : String) :
    Except String String := do
  let url ← b.createRepo repo_id
  let username ← splitUsername repo_id
  let _ ← b.pushCard repo_id (DATASET_CARD username)
  let ds ← b.loadDataset json_path
  let _ ← b.pushDataset repo_id ds
  return url

/-- Snail.push_to_hf (snail.py lines 251-283): raises ValueError on an
empty argument; otherwise every exception of the body is caught and
logged, and the function returns `None`. -/
def push_to_hf (b : HfBackend) (json_path repo_id : String) : Except String Unit :=
  if json_path = "" then
    Except.error "The JSON file path must be provided and cannot be empty."
  else if repo_id = "" then
    Except.error "The repository ID must be provided and cannot be empty."
  else
    match push_to_hf_body b json_path repo_id with
    | Except.ok _ => Except.ok ()
    | Except.error _ => Except.ok ()

/-! ### Helper lemmas -/

theorem get_cot_aux_fst (oracle : Nat → String → CallOutcome) (delay : Nat) :
    ∀ (datas : List String) (i : Nat),
      (get_cot_aux oracle delay i datas).1 =
        (List.enumFrom i datas).filterMap
          (fun p => match oracle p.1 p.2 with
            | CallOutcome.ok t => some t
            | CallOutcome.err _ => none) := by
  intro datas
  induction datas with
  | nil => intro i; simp [get_cot_aux]
  | cons data rest ih =>
    intro i
    rw [List.enumFrom_cons, List.filterMap_cons]
    cases h : oracle i data with
    | ok t => simp [get_cot_aux, h, ih (i + 1)]
    | err m => simp [get_cot_aux, h, ih (i + 1)]

theorem countSleeps_get_cot_aux (oracle : Nat → String → CallOutcome) (delay : Nat) :
    ∀ (datas : List String) (i : Nat),
      countSleeps (get_cot_aux oracle delay i datas).2 =
        (get_cot_aux oracle delay i datas).1.length := by
  intro datas
  induction datas with
  | nil => intro i; simp [get_cot_aux, countSleeps]
  | cons data rest ih =>
    intro i
    cases h : oracle i data with
    | ok t => simp [get_cot_aux, countSleeps, h, ih (i + 1)]
    | err m => simp [get_cot_aux, countSleeps, h, ih (i + 1)]

theorem keys_nil : keys [] = [] := rfl

theorem keys_cons (p : String × String) (d : PyDict) : keys (p :: d) = p.1 :: keys d := rfl

theorem mem_keys_dictInsert (d : PyDict) (k v q : String) :
    q ∈ keys (dictInsert d k v) ↔ q ∈ keys d ∨ q = k := by
  induction d with
  | nil => simp [dictInsert, keys_nil, keys_cons]
  | cons p d ih =>
    by_cases h : p.1 = k <;> simp [dictInsert, h, keys_cons, ih] <;> tauto

theorem length_dictInsert (d : PyDict) (k v : String) :
    (dictInsert d k v).length = if k ∈ keys d then d.length else d.length + 1 := by
  induction d with
  | nil => simp [dictInsert, keys_nil]
  | cons p d ih =>
    by_cases h : p.1 = k
    · simp [dictInsert, h, keys_cons]
    · have h2 : ¬ k = p.1 := fun hh => h hh.symm
      by_cases hk : k ∈ keys d <;> simp [dictInsert, h, keys_cons, ih, h2, hk]

theorem length_dictInsert_le (d : PyDict) (k v : String) :
    (dictInsert d k v).length ≤ d.length + 1 := by
  rw [length_dictInsert]
  split <;> omega

theorem dictLookup_nil (q : String) : dictLookup [] q = none := rfl

theorem dictLookup_cons (p : String × String) (d : PyDict) (q : String) :
    dictLookup (p :: d) q = if p.1 = q then some p.2 else dictLookup d q := by
  by_cases h : p.1 = q
  · rw [if_pos h]
    unfold dictLookup
    rw [List.find?_cons_of_pos _ (by simp [h])]
    rfl
  · rw [if_neg h]
    unfold dictLookup
    rw [List.find?_cons_of_neg _ (by simp [h])]

theorem dictLookup_dictInsert (d : PyDict) (k v q : String) :
    dictLookup (dictInsert d k v) q = if q = k then some v else dictLookup d q := by
  induction d with
  | nil =>
    by_cases h : q = k
    · simp [dictInsert, dictLookup_cons, dictLookup_nil, h]
    · have h2 : ¬ k = q := fun hh => h hh.symm
      simp [dictInsert, dictLookup_cons, dictLookup_nil, h, h2]
  | cons p d ih =>
    by_cases hpk : p.1 = k
    · by_cases h : q = k
      · simp [dictInsert, hpk, dictLookup_cons, h]
      · have h2 : ¬ k = q := fun hh => h hh.symm
        simp [dictInsert, hpk, dictLookup_cons, h, h2]
    · by_cases hq : q = k <;> by_cases hpq : p.1 = q
      · exact absurd (hpq.trans hq) hpk
      · subst hq
        simp [dictInsert, hpk, dictLookup_cons, hpq, ih]
      · simp [dictInsert, hpk, dictLookup_cons, hq, hpq, ih]
      · simp [dictInsert, hpk, dictLookup_cons, hq, hpq, ih]

theorem dictOfPairs_eq_insertAll (ps : List (String × String)) :
    dictOfPairs ps = insertAll [] ps := rfl

theorem insertAll_cons (d : PyDict) (p : String × String) (ps : List (String × String)) :
    insertAll d (p :: ps) = insertAll (dictInsert d p.1 p.2) ps := rfl

theorem mem_keys_insertAll :
    ∀ (ps : List (String × String)) (d : PyDict) (q : String),
      q ∈ keys (insertAll d ps) ↔ q ∈ keys d ∨ q ∈ keys ps := by
  intro ps
  induction ps with
  | nil => intro d q; simp [insertAll, keys_nil]
  | cons p ps ih =>
    intro d q
    rw [insertAll_cons, ih, mem_keys_dictInsert, keys_cons, List.mem_cons]
    tauto

theorem length_insertAll_le :
    ∀ (ps : List (String × String)) (d : PyDict),
      (insertAll d ps).length ≤ d.length + ps.length := by
  intro ps
  induction ps with
  | nil => intro d; simp [insertAll]
  | cons p ps ih =>
    intro d
    rw [insertAll_cons]
    calc (insertAll (dictInsert d p.1 p.2) ps).length
        ≤ (dictInsert d p.1 p.2).length + ps.length := ih _
      _ ≤ (d.length + 1) + ps.length := by
          have := length_dictInsert_le d p.1 p.2
          omega
      _ = d.length + (p :: ps).length := by
          simp only [List.length_cons]
          omega

theorem length_insertAll_eq :
    ∀ (ps : List (String × String)) (d : PyDict),
      (keys ps).Nodup → (∀ k ∈ keys ps, k ∉ keys d) →
      (insertAll d ps).length = d.length + ps.length := by
  intro ps
  induction ps with
  | nil => intro d _ _; simp [insertAll]
  | cons p ps ih =>
    intro d hnd hdisj
    rw [keys_cons, List.nodup_cons] at hnd
    have hpd : p.1 ∉ keys d := hdisj p.1 (by rw [keys_cons]; exact List.mem_cons_self _ _)
    have hdisj2 : ∀ k ∈ keys ps, k ∉ keys (dictInsert d p.1 p.2) := by
      intro k hk
      rw [mem_keys_dictInsert]
      push_neg
      refine ⟨hdisj k (by rw [keys_cons]; exact List.mem_cons_of_mem _ hk), ?_⟩
      intro hkp
      exact hnd.1 (hkp ▸ hk)
    rw [insertAll_cons, ih _ hnd.2 hdisj2, length_dictInsert, if_neg hpd]
    simp only [List.length_cons]
    omega

theorem length_insertAll_lt :
    ∀ (ps : List (String × String)) (d : PyDict),
      ¬ ((keys ps).Nodup ∧ ∀ k ∈ keys ps, k ∉ keys d) →
      (insertAll d ps).length < d.length + ps.length := by
  intro ps
  induction ps with
  | nil => intro d h; exact absurd ⟨List.nodup_nil, by simp [keys_nil]⟩ h
  | cons p ps ih =>
    intro d h
    by_cases hmem : p.1 ∈ keys d
    · rw [insertAll_cons]
      calc (insertAll (dictInsert d p.1 p.2) ps).length
          ≤ (dictInsert d p.1 p.2).length + ps.length := length_insertAll_le _ _
        _ = d.length + ps.length := by rw [length_dictInsert, if_pos hmem]
        _ < d.length + (p :: ps).length := by simp
    · have hbad : ¬ ((keys ps).Nodup ∧ ∀ k ∈ keys ps, k ∉ keys (dictInsert d p.1 p.2)) := by
        rintro ⟨hnd, hdisj⟩
        apply h
        constructor
        · rw [keys_cons, List.nodup_cons]
          refine ⟨fun hp => ?_, hnd⟩
          exact hdisj p.1 hp (by rw [mem_keys_dictInsert]; exact Or.inr rfl)
        · intro k hk
          rw [keys_cons, List.mem_cons] at hk
          rcases hk with hk | hk
          · rw [hk]; exact hmem
          · intro hkd
            exact hdisj k hk (by rw [mem_keys_dictInsert]; exact Or.inl hkd)
      rw [insertAll_cons]
      have hlt := ih _ hbad
      rw [length_dictInsert, if_neg hmem] at hlt
      calc (insertAll (dictInsert d p.1 p.2) ps).length
          < (d.length + 1) + ps.length := hlt
        _ = d.length + (p :: ps).length := by
          simp only [List.length_cons]
          omega

theorem dictLookup_insertAll :
    ∀ (ps : List (String × String)) (d : PyDict) (q : String),
      dictLookup (insertAll d ps) q =
        ((ps.reverse.find? (fun pr => pr.1 == q)).map Prod.snd).or (dictLookup d q) := by
  intro ps
  induction ps with
  | nil => intro d q; simp [insertAll]
  | cons p ps ih =>
    intro d q
    rw [insertAll_cons, ih, dictLookup_dictInsert, List.reverse_cons, List.find?_append]
    by_cases hq : p.1 = q
    · cases hf : ps.reverse.find? (fun pr => pr.1 == q) with
      | none => simp [hf, hq, Option.or]
      | some pr => simp [hf, hq, Option.or]
    · have hq2 : ¬ q = p.1 := fun hh => hq hh.symm
      cases hf : ps.reverse.find? (fun pr => pr.1 == q) with
      | none => simp [hf, hq, hq2, Option.or]
      | some pr => simp [hf, hq, hq2, Option.or]

theorem foldl_append_singleton_eq_map {α β : Type} (f : α → β) :
    ∀ (l : List α) (init : List β),
      l.foldl (fun acc a => acc ++ [f a]) init = init ++ l.map f := by
  intro l
  induction l with
  | nil => intro init; simp
  | cons a l ih => intro init; simp [ih]

theorem matchAtWith_cap_no_newline {sp : Char → Bool} {l cap r : List Char}
    (h : matchAtWith sp l = some (cap, r)) : ∀ a ∈ cap, a ≠ '\n' := by
  unfold matchAtWith at h
  split at h
  · simp at h
  next c rest =>
    split at h
    · split at h
      · simp at h
      · split at h
        next r2 heq =>
          split at h
          · simp at h
          · have hcap : cap = (r2.dropWhile sp).takeWhile (fun ch => ch ≠ '\n') := by
              simp only [Option.some.injEq, Prod.mk.injEq] at h
              exact h.1.symm
            intro a ha
            rw [hcap] at ha
            simpa using List.mem_takeWhile_imp ha
        next => simp at h
    · simp at h

theorem mem_rstrip {l : List Char} {a : Char} (h : a ∈ rstrip l) : a ∈ l := by
  unfold rstrip at h
  have h1 : a ∈ l.reverse.dropWhile isSpaceChar := List.mem_reverse.mp h
  have h2 : a ∈ l.reverse := (List.dropWhile_sublist _).subset h1
  exact List.mem_reverse.mp h2

theorem findAllCapsFuel_no_newline (sp : Char → Bool) :
    ∀ (fuel : Nat) (l : List Char), ∀ cap ∈ findAllCapsFuel sp fuel l,
      ∀ a ∈ cap, a ≠ '\n' := by
  intro fuel
  induction fuel with
  | zero => intro l cap hcap; simp [findAllCapsFuel] at hcap
  | succ fuel ih =>
    intro l cap hcap
    match l with
    | [] => rw [findAllCapsFuel_nil] at hcap; simp at hcap
    | c :: rest =>
      cases hm : matchAtWith sp (c :: rest) with
      | some pr =>
        obtain ⟨cap2, r⟩ := pr
        simp only [findAllCapsFuel, hm] at hcap
        rcases List.mem_cons.mp hcap with hc | hc
        · subst hc; exact matchAtWith_cap_no_newline hm
        · exact ih r cap hc
      | none =>
        simp only [findAllCapsFuel, hm] at hcap
        exact ih rest cap hcap

theorem matchAtWith_eq_none_of_head_ne_newline (sp : Char → Bool) {c : Char}
    (rest : List Char) (h : ¬ c = '\n') : matchAtWith sp (c :: rest) = none := by
  unfold matchAtWith
  simp [h]

theorem findAllCapsFuel_eq_nil_of_no_newline (sp : Char → Bool) :
    ∀ (fuel : Nat) (l : List Char), '\n' ∉ l → findAllCapsFuel sp fuel l = [] := by
  intro fuel
  induction fuel with
  | zero => intro l _; rfl
  | succ fuel ih =>
    intro l hn
    match l with
    | [] => rfl
    | c :: rest =>
      have hc : ¬ c = '\n' := fun hceq => hn (List.mem_cons.mpr (Or.inl hceq.symm))
      simp only [findAllCapsFuel, matchAtWith_eq_none_of_head_ne_newline sp rest hc]
      exact ih rest (fun hr => hn (List.mem_cons_of_mem c hr))

/-! ### The claims -/

/-- C1: for every input list, `get_cot_result` returns the successful
per-item results in input order, one per successful backend call;
failed items are dropped with no placeholder, so the output length is
at most the input length, and can be strictly smaller. -/
theorem get_cot_result_successes_in_order :
    (∀ (oracle : Nat → String → CallOutcome) (datas : List String) (delay : Nat),
      (get_cot_result oracle datas delay).1 =
        (List.enumFrom 0 datas).filterMap
          (fun p => match oracle p.1 p.2 with
            | CallOutcome.ok t => some t
            | CallOutcome.err _ => none) ∧
      (get_cot_result oracle datas delay).1.length ≤ datas.length) ∧
    (∃ (oracle : Nat → String → CallOutcome) (datas : List String) (delay : Nat),
      (get_cot_result oracle datas delay).1.length < datas.length) := by
  constructor
  · intro oracle datas delay
    refine ⟨get_cot_aux_fst oracle delay datas 0, ?_⟩
    rw [get_cot_result, get_cot_aux_fst oracle delay datas 0]
    calc ((List.enumFrom 0 datas).filterMap _).length
        ≤ (List.enumFrom 0 datas).length := List.length_filterMap_le _ _
      _ = datas.length := List.enumFrom_length
  · exact ⟨fun _ _ => CallOutcome.err "boom", ["item"], 0, by decide⟩

/-- C2: `create_ds` fails with the length-mismatch ValueError exactly
when the two lists differ in length, and returns the zipped dict when
they agree. -/
theorem create_ds_length_mismatch_iff (instruction output : List String) :
    if instruction.length = output.length then
      create_ds instruction output = Except.ok (dictOfPairs (instruction.zip output))
    else
      create_ds instruction output =
        Except.error "Instruction and output must be the same length" := by
  by_cases h : instruction.length = output.length <;> simp [create_ds, h]

/-- C3, as stated ("the pause is performed after every input item,
regardless of whether that item's backend call succeeded or failed"),
is false: an all-failing oracle on a one-item batch produces no sleep
at all, because `time.sleep(delay)` sits inside the `try` block and the
raise jumps past it. -/
theorem sleep_not_performed_on_failure :
    ¬ (∀ (oracle : Nat → String → CallOutcome) (datas : List String) (delay : Nat),
        countSleeps (get_cot_result oracle datas delay).2 = datas.length) := by
  intro h
  have := h (fun _ _ => CallOutcome.err "boom") ["item"] 5
  simp [get_cot_result, get_cot_aux, countSleeps] at this

/-- C3 amended: the pacing pause runs after each item whose backend
call succeeds; when the call raises, the handler is entered before the
sleep, so failed items are not followed by a pause.  The number of
sleeps equals the number of successful (appended) items. -/
theorem sleep_after_each_successful_item
    (oracle : Nat → String → CallOutcome) (datas : List String) (delay : Nat) :
    countSleeps (get_cot_result oracle datas delay).2 =
      (get_cot_result oracle datas delay).1.length :=
  countSleeps_get_cot_aux oracle delay datas 0

/-- C4, as stated ("one-or-more spaces after the period and never spans
a newline: each extracted string is taken from the same line as its
numbered marker"), is false: the source pattern's `\s+` also matches
newlines, so on "\n1.\nAlpha" the source extractor captures "Alpha"
from the line after its marker, while the same-line variant described
by the claim matches nothing there. -/
theorem extract_listings_spans_newline_counterexample :
    extract_listings "\n1.\nAlpha" = ["Alpha"] ∧
    extract_listings_sameline "\n1.\nAlpha" = [] ∧
    extract_listings "\n1.\nAlpha" ≠ extract_listings_sameline "\n1.\nAlpha" :=
  ⟨by decide, by decide, by decide⟩

/-- C4 amended: the marker pattern requires one-or-more whitespace
characters after the period, and that whitespace may span newlines, so
an extracted string can come from a line after its numbered marker; the
capture itself never crosses a newline, so no extracted string contains
a newline character. -/
theorem extract_listings_result_no_newline :
    ∀ (text : String), ∀ s ∈ extract_listings text, '\n' ∉ s.data := by
  intro text s hs hmem
  unfold extract_listings at hs
  rw [List.mem_map] at hs
  obtain ⟨cap, hcap, rfl⟩ := hs
  have h1 : '\n' ∈ rstrip cap := hmem
  have h2 : '\n' ∈ cap := mem_rstrip h1
  exact findAllCapsFuel_no_newline isSpaceChar text.data.length text.data cap hcap '\n' h2 rfl

/-- Witness for the amended C4 at a concrete input. -/
theorem extract_listings_result_no_newline_witness :
    '\n' ∉ ("Alpha" : String).data :=
  extract_listings_result_no_newline "\n1. Alpha" "Alpha" (by decide)

/-- C5: `extract_listings` returns the trailing-whitespace-trimmed
captured groups in order of appearance; the two spec examples compute
as stated (a marker at the very start of the string, with no preceding
newline, is not matched), and any text without a newline — in
particular any text with no match of the pattern, whose first character
is a newline — yields the empty list rather than an error. -/
theorem extract_listings_examples :
    extract_listings "\n1. Alpha\n2. Beta\n3. Gamma" = ["Alpha", "Beta", "Gamma"] ∧
    extract_listings "1. Alpha\n2. Beta" = ["Beta"] ∧
    ∀ text : String, '\n' ∉ text.data → extract_listings text = [] := by
  refine ⟨by decide, by decide, ?_⟩
  intro text hn
  unfold extract_listings findAllCapsWith
  rw [findAllCapsFuel_eq_nil_of_no_newline isSpaceChar _ _ hn]
  rfl

/-- Witness for C5's no-match conjunct at a concrete input. -/
theorem extract_listings_examples_witness :
    extract_listings "no numbered markers here" = [] :=
  extract_listings_examples.2.2 "no numbered markers here" (by decide)

/-- C6: for equal-length input lists of length N, `create_ds` returns a
dict with at most N entries, exactly N iff the instructions are
distinct; the value retained for a duplicated instruction is the output
paired with its last occurrence (last write wins). -/
theorem create_ds_dict_properties (instruction output : List String)
    (h : instruction.length = output.length) :
    create_ds instruction output = Except.ok (dictOfPairs (instruction.zip output)) ∧
    (dictOfPairs (instruction.zip output)).length ≤ instruction.length ∧
    ((dictOfPairs (instruction.zip output)).length = instruction.length ↔
      instruction.Nodup) ∧
    ∀ k, dictLookup (dictOfPairs (instruction.zip output)) k =
      ((instruction.zip output).reverse.find? (fun pr => pr.1 == k)).map Prod.snd := by
  have hzlen : (instruction.zip output).length = instruction.length := by
    rw [List.length_zip, h, Nat.min_self]
  have hkeys : keys (instruction.zip output) = instruction :=
    List.map_fst_zip instruction output (le_of_eq h)
  refine ⟨by simp [create_ds, h], ?_, ?_, ?_⟩
  · rw [dictOfPairs_eq_insertAll]
    calc (insertAll [] (instruction.zip output)).length
        ≤ ([] : PyDict).length + (instruction.zip output).length := length_insertAll_le _ _
      _ = instruction.length := by simp [hzlen]
  · constructor
    · intro hlen
      by_contra hnd
      have hlt := length_insertAll_lt (instruction.zip output) []
        (fun hgood => hnd (hkeys ▸ hgood.1))
      rw [← dictOfPairs_eq_insertAll] at hlt
      simp only [List.length_nil, Nat.zero_add, hzlen] at hlt
      omega
    · intro hnd
      rw [dictOfPairs_eq_insertAll,
        length_insertAll_eq _ _ (hkeys.symm ▸ hnd) (fun k hk => by simp [keys_nil])]
      simp [hzlen]
  · intro k
    rw [dictOfPairs_eq_insertAll, dictLookup_insertAll]
    cases hf : (instruction.zip output).reverse.find? (fun pr => pr.1 == k) with
    | none => simp [hf, Option.or, dictLookup_nil]
    | some pr => simp [hf, Option.or]

/-- Witness for C6 on lists with a duplicated instruction. -/
theorem create_ds_dict_properties_witness :
    create_ds ["a", "b", "a"] ["x", "y", "z"] =
        Except.ok (dictOfPairs ((["a", "b", "a"]).zip ["x", "y", "z"])) ∧
    (dictOfPairs ((["a", "b", "a"]).zip ["x", "y", "z"])).length ≤
        (["a", "b", "a"] : List String).length ∧
    ((dictOfPairs ((["a", "b", "a"]).zip ["x", "y", "z"])).length =
        (["a", "b", "a"] : List String).length ↔
      (["a", "b", "a"] : List String).Nodup) ∧
    ∀ k, dictLookup (dictOfPairs ((["a", "b", "a"]).zip ["x", "y", "z"])) k =
      (((["a", "b", "a"]).zip ["x", "y", "z"]).reverse.find?
        (fun pr => pr.1 == k)).map Prod.snd :=
  create_ds_dict_properties ["a", "b", "a"] ["x", "y", "z"] rfl

/-- C7: `transform_alpaca_format` yields one flat record per dict entry
in iteration order, with `instruction`/`output` from the entry and
`input` always the empty string, together with the timestamp-named
filename. -/
theorem transform_alpaca_format_records (timestamp : String) (dataset : PyDict) :
    (transform_alpaca_format timestamp dataset).2 =
        dataset.map (fun p => AlpacaRecord.mk p.1 "" p.2) ∧
    (transform_alpaca_format timestamp dataset).1 =
        "transformed_qa_" ++ timestamp ++ ".json" ∧
    ∀ r ∈ (transform_alpaca_format timestamp dataset).2, r.input = "" := by
  refine ⟨?_, rfl, ?_⟩
  · simp [transform_alpaca_format, foldl_append_singleton_eq_map]
  · intro r hr
    simp only [transform_alpaca_format, foldl_append_singleton_eq_map,
      List.nil_append, List.mem_map] at hr
    obtain ⟨p, hp, rfl⟩ := hr
    rfl

/-- Witness for C7 at a concrete one-entry dict. -/
theorem transform_alpaca_format_records_witness :
    (AlpacaRecord.mk "i" "" "o").input = "" :=
  (transform_alpaca_format_records "TS" [("i", "o")]).2.2
    (AlpacaRecord.mk "i" "" "o") (by decide)

/-- C8: `searching` catches every backend failure: an erroring backend
yields `None` rather than a propagated exception, and a successful one
yields the response text. -/
theorem searching_catches_backend_failure :
    (∀ e, (searching (Except.error e)).1 = none) ∧
    (∀ t, (searching (Except.ok t)).1 = some t) :=
  ⟨fun _ => rfl, fun _ => rfl⟩

/-- C9: `push_to_hf` raises the invalid-argument ValueError exactly for
an empty `json_path` (checked first) or an empty `repo_id`; with both
non-empty it returns normally for every behaviour of the hosting
backend, every failure of the body being caught. -/
theorem push_to_hf_error_iff_empty_arg (b : HfBackend) (json_path repo_id : String) :
    push_to_hf b json_path repo_id =
      (if json_path = "" then
        Except.error "The JSON file path must be provided and cannot be empty."
      else if repo_id = "" then
        Except.error "The repository ID must be provided and cannot be empty."
      else Except.ok ()) := by
  unfold push_to_hf
  by_cases h1 : json_path = "" <;> by_cases h2 : repo_id = "" <;>
    simp only [h1, h2, if_true, if_false] <;>
    first
      | rfl
      | cases push_to_hf_body b json_path repo_id <;> rfl

/-- C10: on the empty dict, `transform_alpaca_format` succeeds and
returns the empty record list with the timestamp-named filename. -/
theorem transform_alpaca_format_empty (timestamp : String) :
    transform_alpaca_format timestamp [] =
      ("transformed_qa_" ++ timestamp ++ ".json", []) := rfl

end Snail
